import Mathlib

/-!
Shallow embedding of the chemical-formula subsystem of `src/Assignment2`
(`formulaExpander.c`, `unionStack.c`, `periodicTable.c`).

The C scanners walk a NUL-terminated string with a cursor; here the remaining
input is a `List Char` and the cursor moves by recursing on a computed suffix.
Each loop iteration of the C consumes at least one character, so the recursion
is made structural with a fuel argument that the wrappers instantiate with the
input length (which is always sufficient); this keeps every definition
evaluable by `decide`/`rfl`.
-/

/-- `Element` of `periodicTable.h`: chemical symbol (at most 3 chars) and
atomic number (`int`, modelled as `Int`). -/
structure Element where
  chemSymbol : String
  atomicNumber : Int
deriving DecidableEq, Repr

/-- `StackDataType` enum of `unionStack.h`. -/
inductive StackDataType where
  | CHAR_TYPE
  | ELEMENT_TYPE
deriving DecidableEq, Repr

/-- The `StackData` union of `unionStack.h` together with the `dataType` tag a
node carries; the C pairs an untagged union with an enum tag that is always set
consistently by the two push functions, so the pair is modelled as a sum. -/
inductive StackData where
  | charData : Char → StackData
  | elementData : Element → StackData
deriving DecidableEq, Repr

/-- The tag that the push functions of `unionStack.c` store alongside each
payload. -/
def StackData.dataType : StackData → StackDataType
  | .charData _ => .CHAR_TYPE
  | .elementData _ => .ELEMENT_TYPE

/-- `UnionStack` of `unionStack.h`: the chain of nodes hanging off `top`
(head = top) plus the `size` counter. -/
structure UnionStack where
  nodes : List StackData
  size : Int
deriving DecidableEq, Repr

/-- `initUnionStack` (`unionStack.c` lines 21-33): top = NULL, size = 0. -/
def initUnionStack : UnionStack := ⟨[], 0⟩

/-- `isEmptyUnion` (`unionStack.c` lines 37-39): the stack is empty iff
`top == NULL`. -/
def isEmptyUnion (s : UnionStack) : Bool := s.nodes.isEmpty

/-- `pushCharUnion` (`unionStack.c` lines 43-62): prepend a CHAR_TYPE node and
increment `size`. -/
def pushCharUnion (s : UnionStack) (c : Char) : UnionStack :=
  ⟨StackData.charData c :: s.nodes, s.size + 1⟩

/-- `pushElementUnion` (`unionStack.c` lines 66-85): prepend an ELEMENT_TYPE
node and increment `size`. -/
def pushElementUnion (s : UnionStack) (e : Element) : UnionStack :=
  ⟨StackData.elementData e :: s.nodes, s.size + 1⟩

/-- `popUnion` (`unionStack.c` lines 89-108): on an empty stack it returns
`EXIT_FAILURE` without writing the out-parameters, modelled as `none`;
otherwise it yields the popped payload, its tag, and the shrunk stack
(`size` decremented). -/
def popUnion (s : UnionStack) : Option (StackData × StackDataType × UnionStack) :=
  match s.nodes with
  | [] => none
  | d :: rest => some (d, d.dataType, ⟨rest, s.size - 1⟩)

/-- One mutating stack call, for stating the size invariant over arbitrary
operation sequences. -/
inductive StackOp where
  | pushChar : Char → StackOp
  | pushElem : Element → StackOp
  | pop : StackOp

/-- Apply one operation to a stack; a failed pop (empty stack) leaves the
stack unchanged, as in the C. -/
def applyOp (s : UnionStack) : StackOp → UnionStack
  | .pushChar c => pushCharUnion s c
  | .pushElem e => pushElementUnion s e
  | .pop =>
    match popUnion s with
    | none => s
    | some (_, _, s') => s'

/-- Run a sequence of stack operations from a freshly initialized stack. -/
def runOps (ops : List StackOp) : UnionStack := ops.foldl applyOp initUnionStack

/-- Greedy 3/2/1-letter tokenizer of `processFormula`
(`formulaExpander.c` lines 62-76): at an alphabetic character `c`, take three
characters when upper-lower-lower, else two when upper-lower, else `c` alone.
Returns the symbol and the remaining input after the consumed characters
(the C reads `*(p+1)`/`*(p+2)`, which at end of string is `'\0'` and is
neither upper nor lower — matching the short-list cases). -/
def readSymbolExpand (c : Char) (rest : List Char) : String × List Char :=
  match rest with
  | c1 :: c2 :: rs =>
    if c.isUpper && c1.isLower && c2.isLower then (String.mk [c, c1, c2], rs)
    else if c.isUpper && c1.isLower then (String.mk [c, c1], c2 :: rs)
    else (String.mk [c], c1 :: c2 :: rs)
  | [c1] =>
    if c.isUpper && c1.isLower then (String.mk [c, c1], [])
    else (String.mk [c], [c1])
  | [] => (String.mk [c], [])

/-- Greedy 3/2/1-letter tokenizer of `countProtons`
(`formulaExpander.c` lines 236-251), embedded separately from
`readSymbolExpand` because the C duplicates the code at the two sites. -/
def readSymbolCount (c : Char) (rest : List Char) : String × List Char :=
  match rest with
  | c1 :: c2 :: rs =>
    if c.isUpper && c1.isLower && c2.isLower then (String.mk [c, c1, c2], rs)
    else if c.isUpper && c1.isLower then (String.mk [c, c1], c2 :: rs)
    else (String.mk [c], c1 :: c2 :: rs)
  | [c1] =>
    if c.isUpper && c1.isLower then (String.mk [c, c1], [])
    else (String.mk [c], [c1])
  | [] => (String.mk [c], [])

/-- The digit-run loops of `formulaExpander.c` (lines 83-86 and 113-116):
`acc = acc*10 + (*p - '0')` over the maximal run of digits; returns the value
and the input remaining after the run. -/
def readNumber (acc : Nat) : List Char → Nat × List Char
  | [] => (acc, [])
  | c :: rest =>
    if c.isDigit then readNumber (acc * 10 + (c.toNat - '0'.toNat)) rest
    else (acc, c :: rest)

/-- The `')'` pop loop of `processFormula` (lines 104-106): pop while the pop
succeeds, the popped tag is ELEMENT_TYPE and the symbol is not `"("`, buffering
the popped elements in pop order. Returns the buffer, the remaining stack, and
whether a pop was attempted on an empty stack (stack exhausted). A popped
`"("` marker or CHAR_TYPE entry stops the loop and is consumed but not
buffered. -/
def popToMarker : List StackData → List Element × List StackData × Bool
  | [] => ([], [], true)
  | StackData.charData _ :: st => ([], st, false)
  | StackData.elementData e :: st =>
    if e.chemSymbol = "(" then ([], st, false)
    else
      let r := popToMarker st
      (e :: r.1, r.2.1, r.2.2)

/-- The main scan loop of `processFormula` (`formulaExpander.c` lines 57-130)
over the remaining input and the stack's node list (head = top). The returned
`Bool` records whether any `popUnion` call during the scan was performed on an
empty stack (the digit branch's pop at line 89, and exhaustion of the `')'`
pop loop at line 104). Fuel decreases by one per loop iteration; every
iteration consumes at least one input character, so fuel = input length
suffices and the fuel-0 case is never reached with non-empty input. -/
def scanFuel : Nat → List Char → List StackData → List StackData × Bool
  | 0, _, stack => (stack, false)
  | _ + 1, [], stack => (stack, false)
  | fuel + 1, c :: rest, stack =>
    if c.isAlpha then
      let r := readSymbolExpand c rest
      scanFuel fuel r.2 (StackData.elementData ⟨r.1, 1⟩ :: stack)
    else if c.isDigit then
      let r := readNumber 0 (c :: rest)
      match stack with
      | [] => ((scanFuel fuel r.2 []).1, true)
      | StackData.charData _ :: st => scanFuel fuel r.2 st
      | StackData.elementData e :: st =>
        scanFuel fuel r.2 (List.replicate r.1 (StackData.elementData e) ++ st)
    else if c = '(' then
      scanFuel fuel rest (StackData.elementData ⟨"(", 0⟩ :: stack)
    else if c = ')' then
      let pm := popToMarker stack
      let g :=
        match rest with
        | r0 :: _ => if r0.isDigit then readNumber 0 rest else (1, rest)
        | [] => (1, rest)
      let r := scanFuel fuel g.2
        ((List.replicate g.1 (pm.1.map StackData.elementData)).flatten ++ pm.2.1)
      (r.1, pm.2.2 || r.2)
    else
      scanFuel fuel rest stack

/-- The ELEMENT_TYPE entries of a node list, in order; both drain loops of
`processFormula` (lines 136-162) transfer/emit exactly these. -/
def elementsOf (stack : List StackData) : List Element :=
  stack.filterMap fun d =>
    match d with
    | StackData.elementData e => some e
    | StackData.charData _ => none

/-- The output materialization of `processFormula` (lines 132-167): drain the
main stack into a temporary stack (reversing once), then drain the temporary
stack appending each symbol followed by one space, finally dropping a single
trailing space when present. -/
def renderStack (stack : List StackData) : String :=
  let cs := (((elementsOf stack).reverse).map fun e => e.chemSymbol.data ++ [' ']).flatten
  String.mk (if cs.getLast? = some ' ' then cs.dropLast else cs)

/-- `processFormula` (`formulaExpander.c` lines 36-173): the expanded formula
string, paired with the instrumentation `Bool` of `scanFuel` telling whether
any `popUnion` call during the scan hit an empty stack. -/
def processFormula (formula : String) : String × Bool :=
  let r := scanFuel formula.data.length formula.data []
  (renderStack r.1, r.2)

/-- The expansion string returned by `processFormula`. -/
def expand (formula : String) : String := (processFormula formula).1

/-- Whether expanding `formula` performs some `popUnion` on an empty stack. -/
def expandEmptyPop (formula : String) : Bool := (processFormula formula).2

/-- The scan loop of `checkParentheses` (`formulaExpander.c` lines 288-309)
with its character stack: push on `'('`; on `')'` fail when the stack is empty
or the popped entry is not `'('` (the C sets `valid = false`, which terminates
the loop before the next character); after the scan fail when the stack is
non-empty. Only `pushCharUnion` is used here, so the stack is a list of
characters and every popped tag is CHAR_TYPE. -/
def checkLoop : List Char → List Char → Bool
  | [], stack => stack.isEmpty
  | c :: rest, stack =>
    if c = '(' then checkLoop rest ('(' :: stack)
    else if c = ')' then
      match stack with
      | [] => false
      | d :: stack' => if d = '(' then checkLoop rest stack' else false
    else checkLoop rest stack

/-- `checkParentheses` (`formulaExpander.c` lines 281-320). -/
def checkParentheses (formula : String) : Bool := checkLoop formula.data []

/-- `getAtomicNumber` (`periodicTable.c` lines 67-75): linear search by
symbol, `-1` when not found. The array together with its length bound `n` is
modelled as the list of its first `n` entries. -/
def getAtomicNumber : List Element → String → Int
  | [], _ => -1
  | e :: es, symbol =>
    if e.chemSymbol = symbol then e.atomicNumber else getAtomicNumber es symbol

/-- The per-line summing loop of `countProtons`
(`formulaExpander.c` lines 229-259): scan the expanded line; at each
alphabetic character tokenize greedily (`readSymbolCount`), look the symbol up
with `getAtomicNumber`, and add the result to the running total; every other
character is skipped. Fueled like `scanFuel`. -/
def countChars : Nat → List Element → List Char → Int
  | 0, _, _ => 0
  | _ + 1, _, [] => 0
  | fuel + 1, table, c :: rest =>
    if c.isAlpha then
      let r := readSymbolCount c rest
      getAtomicNumber table r.1 + countChars fuel table r.2
    else countChars fuel table rest

/-- The total `countProtons` computes for one expanded formula line given the
periodic table. -/
def countProtonsLine (table : List Element) (formula : String) : Int :=
  countChars formula.data.length table formula.data

/-- A character after which the C scanners may legitimately see a digit:
a letter (element just pushed), a digit (same run), or `')'` (group
multiplier, consumed inside the `')'` branch). -/
def allowDigit (c : Char) : Bool := c.isAlpha || c.isDigit || c = ')'

/-- `dOkFrom prev input`: no digit of `input` occurs except immediately after
a letter, a digit, or `')'`; `prev` says whether the character just before
`input` allows a digit. -/
def dOkFrom : Bool → List Char → Bool
  | _, [] => true
  | prev, c :: rest => (!c.isDigit || prev) && dOkFrom (allowDigit c) rest

/-- Every digit of the formula is immediately preceded by a letter, a digit,
or `')'` (so in particular no digit directly follows `'('`, and none starts
the formula). -/
def digitsOk (formula : String) : Bool := dOkFrom false formula.data

/-- Depth-counting parenthesis balance: `balLoop input d` holds when, starting
from `d` currently open groups, no `')'` of `input` arrives at depth 0 and the
final depth is 0. Equивalent to `checkLoop` with a stack of `d` copies of
`'('` — see `checkLoop_eq_balLoop`. -/
def balLoop : List Char → Nat → Bool
  | [], d => d == 0
  | c :: rest, d =>
    if c = '(' then balLoop rest (d + 1)
    else if c = ')' then
      match d with
      | 0 => false
      | d' + 1 => balLoop rest d'
    else balLoop rest d

/-- A genuine element token: nonempty symbol made of letters only (which in
particular is not the `"("` group marker and contains no digit). -/
def goodElem (e : Element) : Prop :=
  e.chemSymbol.data ≠ [] ∧ ∀ ch ∈ e.chemSymbol.data, ch.isAlpha = true

/-- Well-formed expander stack at group depth `d`: a list of ELEMENT_TYPE
nodes in which exactly `d` entries are `"("` group markers, every other entry
is a genuine element token, and the markers sit below the tokens of their
group (the head side is the top of the stack). -/
inductive GoodStack : List StackData → Nat → Prop where
  | nil : GoodStack [] 0
  | elem (e : Element) (s : List StackData) (d : Nat) :
      goodElem e → GoodStack s d → GoodStack (StackData.elementData e :: s) d
  | marker (s : List StackData) (d : Nat) :
      GoodStack s d → GoodStack (StackData.elementData ⟨"(", 0⟩ :: s) (d + 1)

/-- Tokens joined by single separating spaces: the shape of the expander's
output line. -/
def sepBySpace : List (List Char) → List Char
  | [] => []
  | [t] => t
  | t :: t' :: ts => t ++ ' ' :: sepBySpace (t' :: ts)

/-- Claim C1 counterexample: the expander does not produce the spec's claimed
outputs; neither `expand "H2O" = "O H H"` nor
`expand "Mg(OH)2" = "O H O H Mg"` holds on the code. -/
theorem expand_spec_order_fails :
    expand "H2O" ≠ "O H H" ∧ expand "Mg(OH)2" ≠ "O H O H Mg" := by decide

/-- Claim C1 (amended): the double-stack drain of `processFormula` restores
the left-to-right scan order, so `expand "H2O" = "H H O"` and
`expand "Mg(OH)2" = "Mg O H O H"` (Mg first, then the two replayed groups,
each contributing O then H). -/
theorem expand_examples_actual_order :
    expand "H2O" = "H H O" ∧ expand "Mg(OH)2" = "Mg O H O H" := by decide

/-- Claim C2: `checkParentheses` (the left-to-right character-stack scan that
pushes on `'('`, fails on `')'` with an empty stack or a popped non-`'('`
entry, and fails on leftover entries after the scan) gives
`isBalanced "H2(O" = false`, `isBalanced "Ca(OH)2" = true`, and
`isBalanced ")(" = false`. -/
theorem checkParentheses_examples :
    checkParentheses "H2(O" = false ∧ checkParentheses "Ca(OH)2" = true ∧
      checkParentheses ")(" = false := by decide

/-- Claim C3 counterexample: the formula `"2"` has balanced parentheses, yet
expanding it performs a `popUnion` on an empty stack (the digit branch pops
with nothing pushed). -/
theorem balanced_two_empty_pop :
    checkParentheses "2" = true ∧ expandEmptyPop "2" = true := by decide

/-- Claim C4 counterexample: with table `{H:1}`, the unknown symbol `"Q"`
contributes the lookup sentinel `-1`, not `0`, to the per-line total. -/
theorem unknown_symbol_neg_one :
    getAtomicNumber [⟨"H", 1⟩] "Q" = -1 ∧
      countProtonsLine [⟨"H", 1⟩] "Q" = -1 ∧
      countProtonsLine [⟨"H", 1⟩] "Q" ≠ 0 := by decide

/-- Claim C5 counterexample: `"(2H)"` has balanced parentheses, yet its
expansion `"( H"` contains the group-marker symbol `'('` (the digit branch
duplicated the marker, stranding one copy on the stack). -/
theorem balanced_marker_in_output :
    checkParentheses "(2H)" = true ∧ '(' ∈ (expand "(2H)").data := by decide

/-- Claim C6: with the periodic table `{H:1, O:8, Mg:12}`, `countProtons` on
the expanded formula `"O H O H Mg"` totals `8+1+8+1+12 = 30`. -/
theorem countProtons_water_magnesium_example :
    countProtonsLine [⟨"H", 1⟩, ⟨"O", 8⟩, ⟨"Mg", 12⟩] "O H O H Mg" = 30 := by decide

/-- Claim C7: a zero multiplier removes the preceding token and an empty group
contributes nothing: `expand "H0"`, `expand "()"`, and `expand "()2"` are all
the empty string. -/
theorem expand_zero_multiplier_empty_group :
    expand "H0" = "" ∧ expand "()" = "" ∧ expand "()2" = "" := by decide

/-- Claim C8: the proton counter's tokenizer is the same function as the
expander's tokenizer: at any cursor position on an alphabetic character the
greedy 3/2/1-letter rules of `countProtons` and `processFormula` produce the
identical symbol and leave the identical remaining input (hence consume the
same number of characters). -/
theorem tokenizers_agree (c : Char) (rest : List Char) (_h : c.isAlpha = true) :
    readSymbolExpand c rest = readSymbolCount c rest := rfl

/-- Witness for `tokenizers_agree` at `'H'` followed by `"2O"`. -/
theorem tokenizers_agree_witness :
    'H'.isAlpha = true ∧
      readSymbolExpand 'H' ['2', 'O'] = readSymbolCount 'H' ['2', 'O'] :=
  ⟨by decide, tokenizers_agree 'H' ['2', 'O'] (by decide)⟩

/-- One stack operation preserves agreement of `size` with the node count. -/
theorem applyOp_preserves (s : UnionStack) (op : StackOp)
    (h : s.size = (s.nodes.length : Int)) :
    (applyOp s op).size = ((applyOp s op).nodes.length : Int) := by
  cases op with
  | pushChar c => simp [applyOp, pushCharUnion, h]
  | pushElem e => simp [applyOp, pushElementUnion, h]
  | pop =>
    cases hn : s.nodes with
    | nil => simp [applyOp, popUnion, hn, h, hn ▸ h]
    | cons d rest =>
      rw [hn] at h
      simp [applyOp, popUnion, hn, h]

/-- Size agreement is preserved along any operation sequence. -/
theorem foldl_applyOp_preserves (ops : List StackOp) :
    ∀ s : UnionStack, s.size = (s.nodes.length : Int) →
      (ops.foldl applyOp s).size = (((ops.foldl applyOp s).nodes.length : Int)) := by
  induction ops with
  | nil => intro s h; simpa using h
  | cons op rest ih =>
    intro s h
    simpa using ih (applyOp s op) (applyOp_preserves s op h)

/-- Claim C9: after any sequence of `pushCharUnion`, `pushElementUnion` and
`popUnion` operations from an initialized stack, the `size` counter equals the
number of live nodes; and `popUnion` on an empty stack fails without producing
an entry (models the C's `EXIT_FAILURE` return that writes neither output). -/
theorem unionStack_size_invariant :
    (∀ ops : List StackOp,
        (runOps ops).size = ((runOps ops).nodes.length : Int)) ∧
      ∀ s : UnionStack, s.nodes = [] → popUnion s = none := by
  constructor
  · intro ops
    exact foldl_applyOp_preserves ops initUnionStack (by simp [initUnionStack])
  · intro s hs
    simp [popUnion, hs]

/-- Witness for `unionStack_size_invariant`: a concrete operation sequence
(including a pop of an empty stack) and the concrete empty stack. -/
theorem unionStack_size_invariant_witness :
    (runOps [StackOp.pushChar 'a', StackOp.pushElem ⟨"He", 2⟩, StackOp.pop,
        StackOp.pop, StackOp.pop]).size =
      ((runOps [StackOp.pushChar 'a', StackOp.pushElem ⟨"He", 2⟩, StackOp.pop,
        StackOp.pop, StackOp.pop]).nodes.length : Int) ∧
      popUnion ⟨[], 0⟩ = none :=
  ⟨unionStack_size_invariant.1 _, unionStack_size_invariant.2 ⟨[], 0⟩ rfl⟩

/-- `checkLoop` ignores every character other than the two parentheses. -/
theorem checkLoop_filter (l : List Char) :
    ∀ stack : List Char,
      checkLoop l stack = checkLoop (l.filter fun c => c = '(' || c = ')') stack := by
  induction l with
  | nil => intro stack; rfl
  | cons c rest ih =>
    intro stack
    by_cases h1 : c = '('
    · subst h1
      simp [checkLoop, List.filter, ih]
    · by_cases h2 : c = ')'
      · subst h2
        cases stack with
        | nil => simp [checkLoop, List.filter]
        | cons d st => simp [checkLoop, List.filter, ih]
      · simp [checkLoop, List.filter, h1, h2, ih stack]

/-- Claim C10: `checkParentheses` depends only on the subsequence of `'('` and
`')'` characters of its input: two formulas with equal parenthesis
subsequences get the same verdict. -/
theorem checkParentheses_depends_only_on_parens (s t : String)
    (h : s.data.filter (fun c => c = '(' || c = ')') =
      t.data.filter (fun c => c = '(' || c = ')')) :
    checkParentheses s = checkParentheses t := by
  unfold checkParentheses
  rw [checkLoop_filter s.data [], checkLoop_filter t.data [], h]

/-- Witness for `checkParentheses_depends_only_on_parens`:
`"H2(O)"` and `"x(y)z"` have the same parenthesis subsequence. -/
theorem checkParentheses_depends_only_on_parens_witness :
    ("H2(O)".data.filter (fun c => c = '(' || c = ')') =
        "x(y)z".data.filter (fun c => c = '(' || c = ')')) ∧
      checkParentheses "H2(O)" = checkParentheses "x(y)z" :=
  ⟨by decide, checkParentheses_depends_only_on_parens "H2(O)" "x(y)z" (by decide)⟩

/-- An alphabetic character is not a digit (disjoint ASCII ranges). -/
theorem alpha_not_digit {c : Char} (h : c.isAlpha = true) : c.isDigit = false := by
  simp [Char.isAlpha, Char.isUpper, Char.isLower, Char.isDigit, UInt32.le_def, UInt32.lt_def,
    BitVec.le_def, BitVec.lt_def] at *
  omega

/-- A digit is not `'('`. -/
theorem digit_ne_lparen {c : Char} (h : c.isDigit = true) : ¬c = '(' := by
  intro heq; rw [heq] at h; exact absurd h (by decide)

/-- A digit is not `')'`. -/
theorem digit_ne_rparen {c : Char} (h : c.isDigit = true) : ¬c = ')' := by
  intro heq; rw [heq] at h; exact absurd h (by decide)

/-- A letter is not `'('`. -/
theorem alpha_ne_lparen {c : Char} (h : c.isAlpha = true) : ¬c = '(' := by
  intro heq; rw [heq] at h; exact absurd h (by decide)

/-- A letter is not `')'`. -/
theorem alpha_ne_rparen {c : Char} (h : c.isAlpha = true) : ¬c = ')' := by
  intro heq; rw [heq] at h; exact absurd h (by decide)

/-- A letter is not a space. -/
theorem alpha_ne_space {c : Char} (h : c.isAlpha = true) : ¬c = ' ' := by
  intro heq; rw [heq] at h; exact absurd h (by decide)

/-- A lowercase character is alphabetic. -/
theorem lower_isAlpha {c : Char} (h : c.isLower = true) : c.isAlpha = true := by
  simp [Char.isAlpha, h]

/-- `balLoop` skips characters that are not parentheses. -/
theorem balLoop_skip {c : Char} (h1 : ¬c = '(') (h2 : ¬c = ')') (rest : List Char) (d : Nat) :
    balLoop (c :: rest) d = balLoop rest d := by
  simp [balLoop, h1, h2]

/-- `readNumber` only consumes characters, never adds any. -/
theorem readNumber_length (l : List Char) : ∀ acc : Nat, (readNumber acc l).2.length ≤ l.length := by
  induction l with
  | nil => intro acc; simp [readNumber]
  | cons c rest ih =>
    intro acc
    by_cases h : c.isDigit
    · simp only [readNumber, if_pos h]
      exact le_trans (ih _) (Nat.le_succ _)
    · simp [readNumber, h]

/-- When the head is a digit, `readNumber` consumes at least that head. -/
theorem readNumber_length_cons {c : Char} (h : c.isDigit = true) (rest : List Char) (acc : Nat) :
    (readNumber acc (c :: rest)).2.length ≤ rest.length := by
  simp only [readNumber, if_pos h]
  exact readNumber_length rest _

/-- The input remaining after `readNumber` does not start with a digit. -/
theorem readNumber_head_not_digit (l : List Char) :
    ∀ (acc : Nat) (c : Char) (cs : List Char), (readNumber acc l).2 = c :: cs → c.isDigit = false := by
  induction l with
  | nil => intro acc c cs h; simp [readNumber] at h
  | cons c0 rest ih =>
    intro acc c cs h
    by_cases hd : c0.isDigit
    · simp only [readNumber, if_pos hd] at h
      exact ih _ c cs h
    · simp only [readNumber, if_neg hd] at h
      injection h with h1 h2
      rw [← h1]
      simpa using hd

/-- `readNumber` consumes only digits, which `balLoop` skips. -/
theorem readNumber_balLoop (l : List Char) :
    ∀ (acc : Nat) (d : Nat), balLoop (readNumber acc l).2 d = balLoop l d := by
  induction l with
  | nil => intro acc d; simp [readNumber]
  | cons c rest ih =>
    intro acc d
    by_cases hd : c.isDigit
    · simp only [readNumber, if_pos hd]
      rw [ih, balLoop_skip (digit_ne_lparen hd) (digit_ne_rparen hd)]
    · simp [readNumber, hd]

/-- `readNumber` consumes only digits, each of which licenses a following
digit, so the `dOkFrom true` property survives the run. -/
theorem readNumber_dOk (l : List Char) :
    ∀ acc : Nat, dOkFrom true l = true → dOkFrom true (readNumber acc l).2 = true := by
  induction l with
  | nil => intro acc h; simpa [readNumber] using h
  | cons c rest ih =>
    intro acc h
    by_cases hd : c.isDigit
    · simp only [readNumber, if_pos hd]
      refine ih _ ?_
      simpa [dOkFrom, allowDigit, hd] using h
    · simpa [readNumber, hd] using h

/-- The two duplicated tokenizers are the same function. -/
theorem readSymbolCount_eq : readSymbolCount = readSymbolExpand := rfl

/-- Bundled facts about one tokenizer step at an alphabetic character: the
produced symbol is a nonempty string of letters; the remaining input is a
suffix of the old one; the consumed characters are letters, so they change
neither the parenthesis balance nor the digit-position property. -/
theorem readSymbolExpand_props {c : Char} (hc : c.isAlpha = true) (rest : List Char) :
    ((readSymbolExpand c rest).1.data ≠ [] ∧
        ∀ ch ∈ (readSymbolExpand c rest).1.data, ch.isAlpha = true) ∧
      (readSymbolExpand c rest).2.length ≤ rest.length ∧
      (∀ d, balLoop (readSymbolExpand c rest).2 d = balLoop rest d) ∧
      (dOkFrom true rest = true → dOkFrom true (readSymbolExpand c rest).2 = true) := by
  match rest with
  | [] =>
    refine ⟨⟨by simp [readSymbolExpand], ?_⟩, by simp [readSymbolExpand], ?_, ?_⟩
    · intro ch hch
      simp [readSymbolExpand] at hch
      rw [hch]; exact hc
    · intro d; rfl
    · intro hd; rfl
  | [c1] =>
    by_cases h2 : (c.isUpper && c1.isLower) = true
    · have h1l : c1.isLower = true := by
        have := h2; simp at this; tauto
      have h1a : c1.isAlpha = true := lower_isAlpha h1l
      refine ⟨⟨?_, ?_⟩, ?_, ?_, ?_⟩
      · simp only [readSymbolExpand, if_pos h2]
        simp
      · intro ch hch
        simp only [readSymbolExpand, if_pos h2] at hch
        simp at hch
        rcases hch with rfl | rfl
        · exact hc
        · exact h1a
      · simp only [readSymbolExpand, if_pos h2]
        simp
      · intro d
        simp only [readSymbolExpand, if_pos h2]
        rw [balLoop_skip (alpha_ne_lparen h1a) (alpha_ne_rparen h1a)]
      · intro hd
        simp only [readSymbolExpand, if_pos h2]
        rfl
    · refine ⟨⟨?_, ?_⟩, ?_, ?_, ?_⟩
      · simp only [readSymbolExpand, if_neg h2]
        simp
      · intro ch hch
        simp only [readSymbolExpand, if_neg h2] at hch
        simp at hch
        rw [hch]; exact hc
      · simp only [readSymbolExpand, if_neg h2]
        simp
      · intro d
        simp only [readSymbolExpand, if_neg h2]
      · intro hd
        simp only [readSymbolExpand, if_neg h2]
        exact hd
  | c1 :: c2 :: rs =>
    by_cases h3 : (c.isUpper && c1.isLower && c2.isLower) = true
    · have h1l : c1.isLower = true := by
        have := h3; simp at this; tauto
      have h2l : c2.isLower = true := by
        have := h3; simp at this; tauto
      have h1a : c1.isAlpha = true := lower_isAlpha h1l
      have h2a : c2.isAlpha = true := lower_isAlpha h2l
      refine ⟨⟨?_, ?_⟩, ?_, ?_, ?_⟩
      · simp only [readSymbolExpand, if_pos h3]
        simp
      · intro ch hch
        simp only [readSymbolExpand, if_pos h3] at hch
        simp at hch
        rcases hch with rfl | rfl | rfl
        · exact hc
        · exact h1a
        · exact h2a
      · simp only [readSymbolExpand, if_pos h3]
        simp
        omega
      · intro d
        simp only [readSymbolExpand, if_pos h3]
        rw [balLoop_skip (alpha_ne_lparen h1a) (alpha_ne_rparen h1a),
          balLoop_skip (alpha_ne_lparen h2a) (alpha_ne_rparen h2a)]
      · intro hd
        simp only [readSymbolExpand, if_pos h3]
        simpa [dOkFrom, allowDigit, h1a, h2a] using hd
    · by_cases h2 : (c.isUpper && c1.isLower) = true
      · have h1l : c1.isLower = true := by
          have := h2; simp at this; tauto
        have h1a : c1.isAlpha = true := lower_isAlpha h1l
        refine ⟨⟨?_, ?_⟩, ?_, ?_, ?_⟩
        · simp only [readSymbolExpand, if_neg h3, if_pos h2]
          simp
        · intro ch hch
          simp only [readSymbolExpand, if_neg h3, if_pos h2] at hch
          simp at hch
          rcases hch with rfl | rfl
          · exact hc
          · exact h1a
        · simp only [readSymbolExpand, if_neg h3, if_pos h2]
          simp
        · intro d
          simp only [readSymbolExpand, if_neg h3, if_pos h2]
          rw [balLoop_skip (alpha_ne_lparen h1a) (alpha_ne_rparen h1a)]
        · intro hd
          simp only [readSymbolExpand, if_neg h3, if_pos h2]
          simpa [dOkFrom, allowDigit, h1a] using hd
      · refine ⟨⟨?_, ?_⟩, ?_, ?_, ?_⟩
        · simp only [readSymbolExpand, if_neg h3, if_neg h2]
          simp
        · intro ch hch
          simp only [readSymbolExpand, if_neg h3, if_neg h2] at hch
          simp at hch
          rw [hch]; exact hc
        · simp only [readSymbolExpand, if_neg h3, if_neg h2]
          simp
        · intro d
          simp only [readSymbolExpand, if_neg h3, if_neg h2]
        · intro hd
          simp only [readSymbolExpand, if_neg h3, if_neg h2]
          exact hd

/-- `checkLoop` with a stack of `d` copies of `'('` is the depth count
`balLoop`: in `checkParentheses` only `'('` is ever pushed. -/
theorem checkLoop_replicate (l : List Char) :
    ∀ d : Nat, checkLoop l (List.replicate d '(') = balLoop l d := by
  induction l with
  | nil =>
    intro d
    cases d <;> simp [checkLoop, balLoop, List.replicate]
  | cons c rest ih =>
    intro d
    by_cases h1 : c = '('
    · subst h1
      have hstep : checkLoop ('(' :: rest) (List.replicate d '(') =
          checkLoop rest (List.replicate (d + 1) '(') := by
        simp [checkLoop, List.replicate_succ]
      rw [hstep, ih]
      simp [balLoop]
    · by_cases h2 : c = ')'
      · subst h2
        cases d with
        | zero => simp [checkLoop, balLoop, List.replicate]
        | succ d' =>
          have hstep : checkLoop (')' :: rest) (List.replicate (d' + 1) '(') =
              checkLoop rest (List.replicate d' '(') := by
            simp [checkLoop, List.replicate_succ]
          have hbal : balLoop (')' :: rest) (d' + 1) = balLoop rest d' := by
            simp [balLoop]
          rw [hstep, hbal, ih]
      · simp [checkLoop, balLoop, h1, h2, ih]

/-- `checkParentheses` equals the depth-counting balance check. -/
theorem checkParentheses_eq_bal (formula : String) :
    checkParentheses formula = balLoop formula.data 0 :=
  checkLoop_replicate formula.data 0

/-- A genuine element token is not the `"("` group marker. -/
theorem goodElem_ne_paren {e : Element} (h : goodElem e) : ¬e.chemSymbol = "(" := by
  intro heq
  have h2 := h.2 '(' (by rw [heq]; decide)
  exact absurd h2 (by decide)

/-- Inverting `GoodStack` on a genuine element at the top. -/
theorem goodStack_cons_elem_inv {e : Element} {s : List StackData} {d : Nat}
    (h : GoodStack (StackData.elementData e :: s) d) (hge : goodElem e) : GoodStack s d := by
  cases h with
  | elem _ _ _ _ hs => exact hs
  | marker _ _ hs => exact absurd rfl (goodElem_ne_paren hge)

/-- Pushing a block of genuine element tokens preserves stack shape. -/
theorem goodStack_append_tokens (l : List Element) {s : List StackData} {d : Nat}
    (hl : ∀ e ∈ l, goodElem e) (hs : GoodStack s d) :
    GoodStack (l.map StackData.elementData ++ s) d := by
  induction l with
  | nil => simpa using hs
  | cons e es ih =>
    simp only [List.map_cons, List.cons_append]
    exact GoodStack.elem e _ d (hl e (by simp)) (ih fun x hx => hl x (by simp [hx]))

/-- Replaying a buffer of genuine tokens `g` times preserves stack shape. -/
theorem goodStack_flatten_replicate (g : Nat) (l : List Element) {s : List StackData} {d : Nat}
    (hl : ∀ e ∈ l, goodElem e) (hs : GoodStack s d) :
    GoodStack ((List.replicate g (l.map StackData.elementData)).flatten ++ s) d := by
  induction g with
  | zero => simpa using hs
  | succ g ih =>
    simp only [List.replicate_succ, List.flatten_cons, List.append_assoc]
    exact goodStack_append_tokens l hl ih

/-- At depth 0 the stack consists solely of genuine element tokens. -/
theorem goodStack_all_good {s : List StackData} {d : Nat} (h : GoodStack s d) (hd : d = 0) :
    ∀ x ∈ s, ∃ e, x = StackData.elementData e ∧ goodElem e := by
  induction h with
  | nil => simp
  | elem e s' d' hge _ ih =>
    intro x hx
    rcases List.mem_cons.mp hx with rfl | hx'
    · exact ⟨e, rfl, hge⟩
    · exact ih hd x hx'
  | marker s' d' _ _ => omega

/-- The `')'` pop loop on a well-formed stack of positive depth: it never pops
an empty stack, the buffered tokens are genuine, and the remaining stack is
well-formed at one lower depth (the matching marker is consumed). -/
theorem popToMarker_good {stack : List StackData} {dd : Nat} (h : GoodStack stack dd) :
    ∀ d : Nat, dd = d + 1 →
      (∀ e ∈ (popToMarker stack).1, goodElem e) ∧
        GoodStack (popToMarker stack).2.1 d ∧ (popToMarker stack).2.2 = false := by
  induction h with
  | nil => intro d hd; omega
  | elem e s' d' hge hs ih =>
    intro d hd
    have hne : ¬e.chemSymbol = "(" := goodElem_ne_paren hge
    obtain ⟨h1, h2, h3⟩ := ih d hd
    refine ⟨?_, ?_, ?_⟩
    · intro x hx
      simp only [popToMarker, if_neg hne] at hx
      rcases List.mem_cons.mp hx with rfl | hx'
      · exact hge
      · exact h1 x hx'
    · simpa only [popToMarker, if_neg hne] using h2
    · simpa only [popToMarker, if_neg hne] using h3
  | marker s' d' hs _ =>
    intro d hd
    have hdd : d' = d := by omega
    subst hdd
    refine ⟨?_, ?_, ?_⟩
    · intro x hx
      simp [popToMarker] at hx
    · simpa [popToMarker] using hs
    · simp [popToMarker]

/-- Main scan invariant: on input whose digits all immediately follow a
letter, a digit or `')'`, whose parentheses balance out from depth `d`, and
with a well-formed stack of depth `d` whose top is a genuine token whenever
the input starts with a (letter-licensed) digit, the scan of `processFormula`
performs no `popUnion` on an empty stack and ends in a well-formed depth-0
stack. -/
theorem scan_inv (fuel : Nat) :
    ∀ (input : List Char) (allow : Bool) (stack : List StackData) (d : Nat),
      input.length ≤ fuel →
      dOkFrom allow input = true →
      balLoop input d = true →
      GoodStack stack d →
      (∀ c rest, input = c :: rest → c.isDigit = true →
        ∃ e st, stack = StackData.elementData e :: st ∧ goodElem e) →
      (scanFuel fuel input stack).2 = false ∧ GoodStack (scanFuel fuel input stack).1 0 := by
  induction fuel with
  | zero =>
    intro input allow stack d hlen hdok hbal hgs _
    have hnil : input = [] := List.length_eq_zero.mp (Nat.le_zero.mp hlen)
    subst hnil
    have hd : d = 0 := by simpa [balLoop] using hbal
    subst hd
    exact ⟨rfl, hgs⟩
  | succ fuel ih =>
    intro input allow stack d hlen hdok hbal hgs htop
    match input with
    | [] =>
      have hd : d = 0 := by simpa [balLoop] using hbal
      subst hd
      exact ⟨rfl, hgs⟩
    | c :: rest =>
      have hlen' : rest.length ≤ fuel := by simpa using hlen
      by_cases hA : c.isAlpha = true
      · -- letter branch: tokenize and push a genuine token
        obtain ⟨⟨hsnn, hsal⟩, hslen, hsbal, hsdok⟩ := readSymbolExpand_props hA rest
        have hdok' : dOkFrom true rest = true := by
          have h := hdok
          simp [dOkFrom, allowDigit, hA] at h
          exact h.2
        have hbal' : balLoop rest d = true := by
          rw [← balLoop_skip (alpha_ne_lparen hA) (alpha_ne_rparen hA) rest d]
          exact hbal
        simp only [scanFuel, if_pos hA]
        refine ih (readSymbolExpand c rest).2 true
          (StackData.elementData ⟨(readSymbolExpand c rest).1, 1⟩ :: stack) d
          (le_trans hslen hlen') (hsdok hdok') (by rw [hsbal]; exact hbal')
          (GoodStack.elem _ _ _ ⟨hsnn, hsal⟩ hgs) ?_
        intro c' rest' heq hdig
        exact ⟨⟨(readSymbolExpand c rest).1, 1⟩, stack, rfl, ⟨hsnn, hsal⟩⟩
      · by_cases hD : c.isDigit = true
        · -- digit branch: the top is a letter-pushed token; pop and replay it
          have hdok2 : allow = true ∧ dOkFrom (allowDigit c) rest = true := by
            simpa [dOkFrom, hD] using hdok
          have hdokc : dOkFrom true (c :: rest) = true := by
            rw [hdok2.1] at hdok
            exact hdok
          obtain ⟨e, st, hstack, hge⟩ := htop c rest rfl hD
          subst hstack
          have hst : GoodStack st d := goodStack_cons_elem_inv hgs hge
          simp only [scanFuel, if_neg hA, if_pos hD]
          refine ih (readNumber 0 (c :: rest)).2 true
            (List.replicate (readNumber 0 (c :: rest)).1 (StackData.elementData e) ++ st) d
            (le_trans (readNumber_length_cons hD rest 0) hlen')
            (readNumber_dOk (c :: rest) 0 hdokc)
            (by rw [readNumber_balLoop (c :: rest) 0 d]; exact hbal) ?_ ?_
          · rw [show List.replicate (readNumber 0 (c :: rest)).1 (StackData.elementData e) =
              (List.replicate (readNumber 0 (c :: rest)).1 e).map StackData.elementData by simp]
            exact goodStack_append_tokens _
              (fun x hx => (List.eq_of_mem_replicate hx) ▸ hge) hst
          · intro c' rest' heq hdig
            exact absurd hdig (by simp [readNumber_head_not_digit (c :: rest) 0 c' rest' heq])
        · by_cases hP : c = '('
          · -- open group: push the marker
            have e1 : ('(' : Char).isDigit = false := by decide
            have e2 : allowDigit '(' = false := by decide
            rw [hP] at hdok hbal
            have hdok' : dOkFrom false rest = true := by
              simpa [dOkFrom, e1, e2] using hdok
            have hbal' : balLoop rest (d + 1) = true := by
              simpa [balLoop] using hbal
            subst hP
            simp only [scanFuel, if_neg hA, if_neg hD, if_pos rfl]
            refine ih rest false (StackData.elementData ⟨"(", 0⟩ :: stack) (d + 1)
              hlen' hdok' hbal' (GoodStack.marker _ _ hgs) ?_
            intro c' rest' heq hdig
            rw [heq] at hdok'
            simp [dOkFrom, hdig] at hdok'
          · by_cases hRP : c = ')'
            · -- close group: pop to the marker and replay the buffer
              have e1 : (')' : Char).isDigit = false := by decide
              have e2 : allowDigit ')' = true := by decide
              rw [hRP] at hdok hbal
              have hdokr : dOkFrom true rest = true := by
                simpa [dOkFrom, e1, e2] using hdok
              cases d with
              | zero => simp [balLoop] at hbal
              | succ d' =>
                have hbal' : balLoop rest d' = true := by
                  simpa [balLoop] using hbal
                obtain ⟨hbuf, hbelow, hflag⟩ := popToMarker_good hgs d' rfl
                subst hRP
                simp only [scanFuel, if_neg hA, if_neg hD,
                  if_neg (by decide : ¬((')' : Char) = '(')), if_pos rfl]
                cases rest with
                | nil =>
                  obtain ⟨hr2, hr1⟩ := ih [] true
                    ((popToMarker stack).1.map StackData.elementData ++
                      (popToMarker stack).2.1) d'
                    (by simp) rfl hbal'
                    (goodStack_append_tokens _ hbuf hbelow)
                    (fun c' rest' heq _ => absurd heq (by simp))
                  exact ⟨by simp [hflag, hr2], by simpa using hr1⟩
                | cons r0 rs =>
                  by_cases hr : r0.isDigit = true
                  · obtain ⟨hr2, hr1⟩ := ih (readNumber 0 (r0 :: rs)).2 true
                      ((List.replicate (readNumber 0 (r0 :: rs)).1
                          ((popToMarker stack).1.map StackData.elementData)).flatten ++
                        (popToMarker stack).2.1) d'
                      (le_trans (readNumber_length (r0 :: rs) 0) hlen')
                      (readNumber_dOk (r0 :: rs) 0 hdokr)
                      (by rw [readNumber_balLoop (r0 :: rs) 0 d']; exact hbal')
                      (goodStack_flatten_replicate _ (popToMarker stack).1 hbuf hbelow)
                      (fun c' rest' heq hdig => absurd hdig
                        (by simp [readNumber_head_not_digit (r0 :: rs) 0 c' rest' heq]))
                    simp only [if_pos hr]
                    exact ⟨by simp [hflag, hr2], hr1⟩
                  · obtain ⟨hr2, hr1⟩ := ih (r0 :: rs) true
                      ((popToMarker stack).1.map StackData.elementData ++
                        (popToMarker stack).2.1) d'
                      hlen' hdokr hbal'
                      (goodStack_append_tokens _ hbuf hbelow)
                      (fun c' rest' heq hdig => by
                        injection heq with hh1 hh2
                        rw [← hh1] at hdig
                        exact absurd hdig (by simpa using hr))
                    simp only [if_neg hr]
                    exact ⟨by simp [hflag, hr2], by simpa using hr1⟩
            · -- any other character: skipped
              have hDF : c.isDigit = false := by simpa using hD
              have hAF : c.isAlpha = false := by simpa using hA
              have hallow : allowDigit c = false := by simp [allowDigit, hAF, hDF, hRP]
              have hdok' : dOkFrom false rest = true := by
                have := hdok
                simp [dOkFrom, hDF, hallow] at this
                exact this
              have hbal' : balLoop rest d = true := by
                rw [← balLoop_skip hP hRP rest d]; exact hbal
              simp only [scanFuel, if_neg hA, if_neg hD, if_neg hP, if_neg hRP]
              refine ih rest false stack d hlen' hdok' hbal' hgs ?_
              intro c' rest' heq hdig
              rw [heq] at hdok'
              simp [dOkFrom, hdig] at hdok'

/-- Claim C3 (amended): for every formula with balanced parentheses in which
every digit immediately follows a letter, another digit, or `')'`, `expand`
performs no `popUnion` on an empty stack. (Without the digit condition the
claim fails: the balanced formula `"2"` pops an empty stack.) -/
theorem expand_no_empty_pop (formula : String)
    (hbal : checkParentheses formula = true) (hdig : digitsOk formula = true) :
    expandEmptyPop formula = false := by
  have hb : balLoop formula.data 0 = true := by
    rw [← checkParentheses_eq_bal]; exact hbal
  have htop0 : ∀ c rest, formula.data = c :: rest → c.isDigit = true →
      ∃ e st, ([] : List StackData) = StackData.elementData e :: st ∧ goodElem e := by
    intro c rest heq hdigc
    have hd : dOkFrom false formula.data = true := hdig
    rw [heq] at hd
    simp [dOkFrom, hdigc] at hd
  have h := scan_inv formula.data.length formula.data false [] 0 le_rfl hdig hb
    GoodStack.nil htop0
  exact h.1

/-- Witness for `expand_no_empty_pop` at the balanced formula `"Mg(OH)2"`. -/
theorem expand_no_empty_pop_witness :
    checkParentheses "Mg(OH)2" = true ∧ digitsOk "Mg(OH)2" = true ∧
      expandEmptyPop "Mg(OH)2" = false :=
  ⟨by decide, by decide, expand_no_empty_pop "Mg(OH)2" (by decide) (by decide)⟩

/-- An element of `getLast?` is a member of the list. -/
theorem mem_of_getLast_opt {α : Type} {l : List α} {a : α} (h : l.getLast? = some a) :
    a ∈ l := by
  induction l with
  | nil => simp at h
  | cons x xs ih =>
    cases xs with
    | nil =>
      simp at h
      simp [h]
    | cons y ys =>
      rw [List.getLast?_cons_cons] at h
      exact List.mem_cons_of_mem x (ih h)

/-- Appending a space to every token and concatenating equals the
space-separated join followed by one trailing space. -/
theorem flatten_map_space (ts : List (List Char)) (h : ts ≠ []) :
    (ts.map fun t => t ++ [' ']).flatten = sepBySpace ts ++ [' '] := by
  induction ts with
  | nil => exact absurd rfl h
  | cons t ts' ih =>
    cases ts' with
    | nil => simp [sepBySpace]
    | cons t' ts'' =>
      have hih := ih (by simp)
      simp only [List.map_cons, List.flatten_cons] at hih ⊢
      rw [hih]
      simp [sepBySpace, List.append_assoc]

/-- The space-separated join of nonempty tokens is nonempty. -/
theorem sepBySpace_ne_nil (ts : List (List Char)) (hne : ts ≠ [])
    (h : ∀ t ∈ ts, t ≠ []) : sepBySpace ts ≠ [] := by
  cases ts with
  | nil => exact absurd rfl hne
  | cons t ts' =>
    cases ts' with
    | nil => simpa [sepBySpace] using h t (by simp)
    | cons t' ts'' => simp [sepBySpace]

/-- Every character of the space-separated join is a space or comes from one
of the tokens. -/
theorem sepBySpace_mem (ts : List (List Char)) (ch : Char) (h : ch ∈ sepBySpace ts) :
    ch = ' ' ∨ ∃ t ∈ ts, ch ∈ t := by
  induction ts with
  | nil => simp [sepBySpace] at h
  | cons t ts' ih =>
    cases ts' with
    | nil =>
      simp only [sepBySpace] at h
      exact Or.inr ⟨t, by simp, h⟩
    | cons t' ts'' =>
      simp only [sepBySpace] at h
      rcases List.mem_append.mp h with h1 | h2
      · exact Or.inr ⟨t, by simp, h1⟩
      · rcases List.mem_cons.mp h2 with rfl | h3
        · exact Or.inl rfl
        · rcases ih h3 with h4 | ⟨u, hu, hcu⟩
          · exact Or.inl h4
          · exact Or.inr ⟨u, by simp [hu], hcu⟩

/-- The last character of the space-separated join of nonempty all-letter
tokens is a letter. -/
theorem sepBySpace_getLast (ts : List (List Char))
    (h : ∀ t ∈ ts, t ≠ [] ∧ ∀ ch ∈ t, ch.isAlpha = true) :
    ∀ ch : Char, (sepBySpace ts).getLast? = some ch → ch.isAlpha = true := by
  induction ts with
  | nil => intro ch hch; simp [sepBySpace] at hch
  | cons t ts' ih =>
    cases ts' with
    | nil =>
      intro ch hch
      simp only [sepBySpace] at hch
      exact (h t (by simp)).2 ch (mem_of_getLast_opt hch)
    | cons t' ts'' =>
      intro ch hch
      simp only [sepBySpace] at hch
      rw [List.getLast?_append_cons] at hch
      have hne : sepBySpace (t' :: ts'') ≠ [] :=
        sepBySpace_ne_nil _ (by simp) fun x hx => (h x (by simp [hx])).1
      cases hsep : sepBySpace (t' :: ts'') with
      | nil => exact absurd hsep hne
      | cons y ys =>
        rw [hsep, List.getLast?_cons_cons] at hch
        refine ih (fun x hx => h x (by simp [hx])) ch ?_
        rw [hsep]
        exact hch

/-- Output materialization of a stack of genuine element tokens: the produced
string is their space-separated join (reversed to restore scan order), with
all tokens nonempty and all-letter. -/
theorem renderStack_format (stack : List StackData)
    (h : ∀ x ∈ stack, ∃ e, x = StackData.elementData e ∧ goodElem e) :
    ∃ tokens : List (List Char),
      (renderStack stack).data = sepBySpace tokens ∧
        ∀ t ∈ tokens, t ≠ [] ∧ ∀ ch ∈ t, ch.isAlpha = true := by
  refine ⟨((elementsOf stack).reverse).map fun e => e.chemSymbol.data, ?_, ?_⟩
  · have hmapmap : (((elementsOf stack).reverse).map fun e => e.chemSymbol.data ++ [' ']) =
        ((((elementsOf stack).reverse).map fun e => e.chemSymbol.data).map fun t =>
          t ++ [' ']) := by
      rw [List.map_map]
      rfl
    by_cases hts : (((elementsOf stack).reverse).map fun e => e.chemSymbol.data) = []
    · unfold renderStack
      rw [hmapmap, hts]
      simp [sepBySpace]
    · unfold renderStack
      rw [hmapmap, flatten_map_space _ hts]
      simp [List.getLast?_concat, List.dropLast_concat]
  · intro t ht
    simp only [List.mem_map, List.mem_reverse] at ht
    obtain ⟨e, he, rfl⟩ := ht
    simp only [elementsOf, List.mem_filterMap] at he
    obtain ⟨x, hx, hxe⟩ := he
    obtain ⟨e', rfl, hge⟩ := h x hx
    simp only [Option.some.injEq] at hxe
    rw [← hxe]
    exact ⟨hge.1, hge.2⟩

/-- Claim C5 (amended): for every formula with balanced parentheses in which
every digit immediately follows a letter, another digit, or `')'`, the string
returned by `expand` is a space-separated join of nonempty all-letter tokens:
every character is a letter or a separating space, no character is a digit,
the group marker `'('` does not occur, and there is no trailing space.
(Without the digit condition the no-marker part fails: the balanced formula
`"(2H)"` expands to `"( H"`.) -/
theorem expand_output_format (formula : String)
    (hbal : checkParentheses formula = true) (hdig : digitsOk formula = true) :
    ∃ tokens : List (List Char),
      (expand formula).data = sepBySpace tokens ∧
      (∀ t ∈ tokens, t ≠ [] ∧ ∀ ch ∈ t, ch.isAlpha = true) ∧
      (∀ ch ∈ (expand formula).data, ch = ' ' ∨ ch.isAlpha = true) ∧
      (∀ ch ∈ (expand formula).data, ch.isDigit = false) ∧
      '(' ∉ (expand formula).data ∧
      (expand formula).data.getLast? ≠ some ' ' := by
  have hb : balLoop formula.data 0 = true := by
    rw [← checkParentheses_eq_bal]; exact hbal
  have htop0 : ∀ c rest, formula.data = c :: rest → c.isDigit = true →
      ∃ e st, ([] : List StackData) = StackData.elementData e :: st ∧ goodElem e := by
    intro c rest heq hdigc
    have hd : dOkFrom false formula.data = true := hdig
    rw [heq] at hd
    simp [dOkFrom, hdigc] at hd
  have hscan := scan_inv formula.data.length formula.data false [] 0 le_rfl hdig hb
    GoodStack.nil htop0
  obtain ⟨tokens, hdata, htok⟩ :=
    renderStack_format _ (goodStack_all_good hscan.2 rfl)
  have hexp : (expand formula).data = sepBySpace tokens := hdata
  refine ⟨tokens, hexp, htok, ?_, ?_, ?_, ?_⟩
  · intro ch hch
    rw [hexp] at hch
    rcases sepBySpace_mem tokens ch hch with h1 | ⟨t, ht, hct⟩
    · exact Or.inl h1
    · exact Or.inr ((htok t ht).2 ch hct)
  · intro ch hch
    rw [hexp] at hch
    rcases sepBySpace_mem tokens ch hch with rfl | ⟨t, ht, hct⟩
    · decide
    · exact alpha_not_digit ((htok t ht).2 ch hct)
  · intro hmem
    rw [hexp] at hmem
    rcases sepBySpace_mem tokens '(' hmem with h1 | ⟨t, ht, hct⟩
    · exact absurd h1 (by decide)
    · exact absurd ((htok t ht).2 '(' hct) (by decide)
  · intro hsome
    rw [hexp] at hsome
    exact absurd (sepBySpace_getLast tokens htok ' ' hsome) (by decide)

/-- Witness for `expand_output_format` at `"Mg(OH)2"`. -/
theorem expand_output_format_witness :
    checkParentheses "Mg(OH)2" = true ∧ digitsOk "Mg(OH)2" = true ∧
      ∃ tokens : List (List Char),
        (expand "Mg(OH)2").data = sepBySpace tokens ∧
        (∀ t ∈ tokens, t ≠ [] ∧ ∀ ch ∈ t, ch.isAlpha = true) ∧
        (∀ ch ∈ (expand "Mg(OH)2").data, ch = ' ' ∨ ch.isAlpha = true) ∧
        (∀ ch ∈ (expand "Mg(OH)2").data, ch.isDigit = false) ∧
        '(' ∉ (expand "Mg(OH)2").data ∧
        (expand "Mg(OH)2").data.getLast? ≠ some ' ' :=
  ⟨by decide, by decide, expand_output_format "Mg(OH)2" (by decide) (by decide)⟩

/-- `countChars` does not depend on the fuel as long as it covers the input
length. -/
theorem countChars_fuel_eq : ∀ (f g : Nat) (table : List Element) (l : List Char),
    l.length ≤ f → l.length ≤ g → countChars f table l = countChars g table l := by
  intro f
  induction f with
  | zero =>
    intro g table l hf _
    have hnil : l = [] := List.length_eq_zero.mp (Nat.le_zero.mp hf)
    subst hnil
    cases g <;> rfl
  | succ f ihf =>
    intro g table l hf hg
    cases l with
    | nil => cases g <;> rfl
    | cons c rest =>
      cases g with
      | zero => simp at hg
      | succ g' =>
        have hf' : rest.length ≤ f := by simpa using hf
        have hg' : rest.length ≤ g' := by simpa using hg
        by_cases hA : c.isAlpha = true
        · simp only [countChars, if_pos hA]
          have hle : (readSymbolCount c rest).2.length ≤ rest.length := by
            rw [readSymbolCount_eq]
            exact (readSymbolExpand_props hA rest).2.1
          rw [ihf g' table (readSymbolCount c rest).2 (le_trans hle hf') (le_trans hle hg')]
        · simp only [countChars, if_neg hA]
          exact ihf g' table rest hf' hg'

/-- `getAtomicNumber` returns the `-1` sentinel when the symbol is absent. -/
theorem getAtomicNumber_not_found (table : List Element) (symbol : String)
    (h : ∀ e ∈ table, ¬e.chemSymbol = symbol) : getAtomicNumber table symbol = -1 := by
  induction table with
  | nil => rfl
  | cons e es ih =>
    simp only [getAtomicNumber, if_neg (h e (by simp))]
    exact ih fun x hx => h x (by simp [hx])

/-- Claim C4 (amended): during proton counting, a tokenized symbol absent from
the periodic table contributes the lookup sentinel `-1` (not `0`) to the
per-line total, and processing continues with the remaining input. -/
theorem countProtons_unknown_adds_neg_one (table : List Element) (c : Char) (rest : List Char)
    (hA : c.isAlpha = true)
    (habs : ∀ e ∈ table, ¬e.chemSymbol = (readSymbolCount c rest).1) :
    countProtonsLine table (String.mk (c :: rest)) =
      countProtonsLine table (String.mk (readSymbolCount c rest).2) - 1 := by
  unfold countProtonsLine
  change countChars (c :: rest).length table (c :: rest) =
    countChars (readSymbolCount c rest).2.length table (readSymbolCount c rest).2 - 1
  have hstep : countChars (c :: rest).length table (c :: rest) =
      getAtomicNumber table (readSymbolCount c rest).1 +
        countChars rest.length table (readSymbolCount c rest).2 := by
    simp only [List.length_cons, countChars, if_pos hA]
  rw [hstep, getAtomicNumber_not_found table _ habs]
  have hle : (readSymbolCount c rest).2.length ≤ rest.length := by
    rw [readSymbolCount_eq]
    exact (readSymbolExpand_props hA rest).2.1
  rw [countChars_fuel_eq rest.length (readSymbolCount c rest).2.length table
    (readSymbolCount c rest).2 hle le_rfl]
  omega

/-- Witness for `countProtons_unknown_adds_neg_one`: table `{H:1}` and the
unknown symbol `"Q"`. -/
theorem countProtons_unknown_adds_neg_one_witness :
    countProtonsLine [⟨"H", 1⟩] (String.mk ['Q']) =
      countProtonsLine [⟨"H", 1⟩] (String.mk (readSymbolCount 'Q' []).2) - 1 :=
  countProtons_unknown_adds_neg_one [⟨"H", 1⟩] 'Q' [] (by decide) (by decide)
